import Mathlib

/-!
Shallow embedding of the prof-viewer core (Rust) in Lean 4, together with
theorems settling the frozen claims about its specification.

Conventions:
* Rust `i64` values are modelled as `Int` (the claims under study never reach
  the 2^63 wrap-around; where a claim genuinely depends on the 64-bit range,
  the range appears as an explicit hypothesis).
* Rust `i64` division `/` truncates toward zero, which is `Int.tdiv`
  (`%` is `Int.tmod`).
* A Rust function that can panic (`assert!`, `unwrap`, out-of-bounds index,
  `unreachable!`) is modelled as an `Option`-valued function, `none` meaning
  "panics".
-/

namespace PV

/-- `Timestamp(pub i64)` from src/timestamp.rs: a signed nanosecond count. -/
structure Timestamp where
  val : Int
deriving DecidableEq, Repr

/-- `Interval { start, stop }` from src/timestamp.rs (half-open, stop exclusive). -/
structure Interval where
  start : Timestamp
  stop : Timestamp
deriving DecidableEq, Repr

namespace Interval

/-- `Interval::new`. -/
def new (start stop : Timestamp) : Interval := ⟨start, stop⟩

/-- `Interval::duration_ns`: `self.stop.0 - self.start.0`. -/
def duration_ns (i : Interval) : Int := i.stop.val - i.start.val

/-- `Interval::contains`: `point >= self.start && point < self.stop`. -/
def contains (i : Interval) (point : Timestamp) : Prop :=
  i.start.val ≤ point.val ∧ point.val < i.stop.val

instance (i : Interval) (p : Timestamp) : Decidable (i.contains p) := by
  unfold contains; infer_instance

/-- `Interval::overlaps`: `!(other.stop <= self.start || other.start >= self.stop)`. -/
def overlaps (i other : Interval) : Prop :=
  ¬(other.stop.val ≤ i.start.val ∨ other.start.val ≥ i.stop.val)

instance (i o : Interval) : Decidable (i.overlaps o) := by
  unfold overlaps; infer_instance

/-- `Interval::intersection`: max of starts, min of stops. -/
def intersection (i other : Interval) : Interval :=
  ⟨⟨max i.start.val other.start.val⟩, ⟨min i.stop.val other.stop.val⟩⟩

/-- `Interval::union`: min of starts, max of stops. -/
def union (i other : Interval) : Interval :=
  ⟨⟨min i.start.val other.start.val⟩, ⟨max i.stop.val other.stop.val⟩⟩

/-- `Interval::grow`: widen by `duration_ns` on either side. -/
def grow (i : Interval) (duration_ns : Int) : Interval :=
  ⟨⟨i.start.val - duration_ns⟩, ⟨i.stop.val + duration_ns⟩⟩

/-- `Interval::translate`: shift both endpoints by `duration_ns`. -/
def translate (i : Interval) (duration_ns : Int) : Interval :=
  ⟨⟨i.start.val + duration_ns⟩, ⟨i.stop.val + duration_ns⟩⟩

/-- The spec's interval invariant `start ≤ stop`. -/
def valid (i : Interval) : Prop := i.start.val ≤ i.stop.val

instance (i : Interval) : Decidable i.valid := by
  unfold valid; infer_instance

end Interval

/-! ## Timestamp / Interval display (src/timestamp.rs)

`TimestampUnits` and the two `From` conversions, and the `Display`
implementations for `TimestampDisplay` and `Interval`, translated to string
construction over `Int` with Rust's truncating `/` and `%`.
-/

/-- `TimestampUnits { divisor, digits_after_separator, unit_name }`. -/
structure TimestampUnits where
  divisor : Int
  digits_after_separator : Int
  unit_name : String
deriving DecidableEq, Repr

/-- `impl From<Timestamp> for TimestampUnits`. -/
def unitsOfTimestamp (t : Timestamp) : TimestampUnits :=
  let ns := t.val
  if ns ≥ 1000000000 then ⟨1000000000, 3, "s"⟩
  else if ns ≥ 1000000 then ⟨1000000, 3, "ms"⟩
  else if ns ≥ 1000 then ⟨1000, 3, "us"⟩
  else ⟨1, 0, "ns"⟩

/-- `impl From<Interval> for TimestampUnits`. -/
def unitsOfInterval (i : Interval) : TimestampUnits :=
  let ns := i.stop.val
  let duration := i.duration_ns
  if ns ≥ 1000000000 then
    if duration ≥ 1000000 then ⟨1000000000, 3, "s"⟩
    else if duration ≥ 1000 then ⟨1000000000, 6, "s"⟩
    else ⟨1000000000, 9, "s"⟩
  else if ns ≥ 1000000 then
    if duration ≥ 1000 then ⟨1000000, 3, "ms"⟩
    else ⟨1000000, 6, "ms"⟩
  else if ns ≥ 1000 then ⟨1000, 3, "us"⟩
  else ⟨1, 0, "ns"⟩

/-- Rust's `{v:0>3}` format: render and left-fill with `'0'` to width 3. -/
def zeroFill3 (v : Int) : String :=
  let s := toString v
  ⟨List.replicate (3 - s.length) '0'⟩ ++ s

/-- `impl fmt::Display for TimestampDisplay`: whole units, then up to three
3-digit groups of the remainder, then an optional unit name. -/
def timestampDisplay (timestamp : Timestamp) (units : TimestampUnits)
    (include_units : Bool) : String :=
  let ns := timestamp.val
  let whole := Int.tdiv ns units.divisor
  let s := toString whole
  let s :=
    if units.digits_after_separator > 0 then
      let remainder := Int.tmod ns units.divisor
      let s := s ++ "."
      let s :=
        if units.digits_after_separator ≥ 3 then
          s ++ zeroFill3 (Int.tdiv remainder (Int.tdiv units.divisor 1000))
        else s
      let s :=
        if units.digits_after_separator ≥ 6 then
          s ++ " " ++
            zeroFill3 (Int.tmod (Int.tdiv remainder (Int.tdiv units.divisor 1000000)) 1000)
        else s
      let s :=
        if units.digits_after_separator ≥ 9 then
          s ++ " " ++
            zeroFill3 (Int.tmod (Int.tdiv remainder (Int.tdiv units.divisor 1000000000)) 1000)
        else s
      s
    else s
  if include_units then s ++ " " ++ units.unit_name else s

/-- `impl fmt::Display for Interval`:
`"from {start} to {stop} (duration: {duration})"` with the interval's units on
both endpoints (units only on the stop) and the duration in its own units. -/
def intervalDisplay (i : Interval) : String :=
  let units := unitsOfInterval i
  let duration : Timestamp := ⟨i.duration_ns⟩
  let duration_units := unitsOfTimestamp duration
  "from " ++ timestampDisplay i.start units false ++
    " to " ++ timestampDisplay i.stop units true ++
    " (duration: " ++ timestampDisplay duration duration_units true ++ ")"

/-! ## Timestamp parsing (src/timestamp.rs `Timestamp::parse`)

The numeric value of a successful parse goes through `f64`, which this
embedding does not model; the *control flow* of the parser (which error it
returns, or that it succeeds) is independent of float semantics and is
modelled exactly: trim, split at the first character that is neither an ASCII
digit nor `'.'`, validate the value text as an `f64` literal, then match the
trimmed lower-cased unit against `ns|us|ms|s`.
-/

inductive TimestampParseError where
  | InvalidValue
  | NoUnit
  | InvalidUnit
deriving DecidableEq, Repr

/-- Rust `str::trim` restricted to the space character (the only whitespace
appearing in the inputs under study). -/
def trimSpaces (cs : List Char) : List Char :=
  (((cs.dropWhile (· = ' ')).reverse).dropWhile (· = ' ')).reverse

/-- Whether `value_s.parse::<f64>()` succeeds, for a string consisting only of
ASCII digits and `'.'` (which is the only shape `Timestamp::parse` can pass
to it): Rust's `f64` grammar accepts it iff it has at least one digit and at
most one dot. -/
def validF64DigitsDots (cs : List Char) : Bool :=
  cs.any (·.isDigit) && (cs.filter (· = '.')).length ≤ 1

/-- The outcome of `Timestamp::parse`: `some e` when it returns `Err(e)`,
`none` when it succeeds (the successful `Timestamp` value is an `f64`
computation, outside this embedding). -/
def timestampParseOutcome (s : String) : Option TimestampParseError :=
  let cs := trimSpaces s.toList
  match cs.findIdx? (fun c => ¬(c.isDigit ∨ c = '.')) with
  | none => some .NoUnit
  | some split_idx =>
    let value_s := cs.take split_idx
    let unit_s := cs.drop split_idx
    if validF64DigitsDots value_s then
      let unit := (trimSpaces unit_s).map Char.toLower
      if unit = "ns".toList ∨ unit = "us".toList ∨ unit = "ms".toList ∨
          unit = "s".toList then
        none
      else some .InvalidUnit
    else some .InvalidValue

/-! ## Data model (src/data.rs) -/

/-- `EntryID(Vec<i64>)`: a path of signed integers; `-1` encodes the Summary
child, non-negative values encode slot indices. -/
abbrev EntryID := List Int

/-- `EntryIndex`: `Summary` or `Slot(u64)`. -/
inductive EntryIndex where
  | Summary
  | Slot (i : Nat)
deriving DecidableEq, Repr

namespace EntryID

/-- `EntryID::root`. -/
def root : EntryID := []

/-- `EntryID::level`: the path length. -/
def level (e : EntryID) : Nat := List.length e

/-- `EntryID::index(level)`: `i64 -> u64` conversion fails exactly on negative
values, which `map_or` sends to `Summary`. -/
def index (e : EntryID) (level : Nat) : Option EntryIndex :=
  (List.get? e level).map (fun v => if 0 ≤ v then .Slot v.toNat else .Summary)

/-- `EntryID::shift_level0` (private helper): asserts the path is non-empty,
its first element is not `-1`, and the shifted first element is
non-negative; `none` models a failed assertion. -/
def shift_level0 (e : EntryID) (level0_offset : Int) : Option EntryID :=
  match e with
  | [] => none
  | v :: rest =>
    if v = -1 then none
    else if 0 ≤ v + level0_offset then some ((v + level0_offset) :: rest)
    else none

end EntryID

/-- `EntryInfo`: recursive tagged tree (`Panel`/`Slot`/`Summary`); the color
payload of `Summary` is irrelevant to the claims and kept as a `Nat`. -/
inductive EntryInfo where
  | panel (short_name long_name : String) (summary : Option EntryInfo)
      (slots : List EntryInfo)
  | slot (short_name long_name : String) (max_rows : Nat)
  | summary (color : Nat)

/-- `EntryInfo::get`: walk the tree along the path. The outer `Option` models
panics (`panic!("EntryID and EntryInfo do not match")`); the inner `Option`
is the function's own return value. A `Summary` path element at a `Panel`
returns `summary.as_deref()` immediately; a slot element indexes `slots`,
the `?` operator turning an out-of-range index into a `None` return. -/
def entryGetAux : List Int → EntryInfo → Option (Option EntryInfo)
  | [], info => some (some info)
  | v :: rest, .panel _ _ summ slots =>
    if 0 ≤ v then
      match List.get? slots v.toNat with
      | none => some none
      | some child => entryGetAux rest child
    else some summ
  | _ :: _, .slot _ _ _ => none
  | _ :: _, .summary _ => none

/-- `EntryInfo::get` with the source's argument order. -/
def entryGet (info : EntryInfo) (entry_id : List Int) : Option (Option EntryInfo) :=
  entryGetAux entry_id info

/-! ## Slug codec (src/data.rs `EntryIDSlug` / `EntryID::from_slug`)

Strings are handled at the `List Char` level: `entryIDSlug` renders each
element in decimal (Rust `write!("{}", e)` on `i64`) joined by `'_'`;
`from_slug` splits on `'_'` and parses each piece as an `i64`.
-/

/-- Decimal digits of `n`, least significant first; `fuel ≥ n` suffices. -/
def natDigitsAux : Nat → Nat → List Char
  | 0, _ => []
  | fuel + 1, n =>
    if n = 0 then [] else Nat.digitChar (n % 10) :: natDigitsAux fuel (n / 10)

/-- Decimal rendering of a natural number, most significant digit first,
`"0"` for zero — Rust's `{}` for unsigned values. -/
def renderNat (n : Nat) : List Char :=
  if n = 0 then ['0'] else (natDigitsAux n n).reverse

/-- Decimal rendering of a signed integer — Rust's `{}` for `i64`. -/
def renderInt (v : Int) : List Char :=
  if v < 0 then '-' :: renderNat v.natAbs else renderNat v.toNat

/-- `impl Display for EntryIDSlug`: elements joined by `'_'`. -/
def entryIDSlug (e : EntryID) : List Char :=
  List.intercalate ['_'] (e.map renderInt)

/-- Rust `str::split('_')`: the empty string yields one empty piece;
separators at the ends yield empty pieces. -/
def splitUnderscore : List Char → List (List Char)
  | [] => [[]]
  | c :: cs =>
    let r := splitUnderscore cs
    if c = '_' then [] :: r else (c :: r.headD []) :: r.tail

/-- Accumulated value of a run of decimal digit characters. -/
def digitsVal (cs : List Char) : Nat :=
  cs.foldl (fun a c => 10 * a + (c.toNat - 48)) 0

/-- Rust `i64::from_str`: an optional sign followed by at least one decimal
digit, rejecting values outside the `i64` range. -/
def parseI64 (cs : List Char) : Option Int :=
  match cs with
  | [] => none
  | c :: rest =>
    let digits := if c = '-' ∨ c = '+' then rest else c :: rest
    if digits.isEmpty || !digits.all Char.isDigit then none
    else
      let v : Int :=
        if c = '-' then -(digitsVal digits : Int) else (digitsVal digits : Int)
      if -(2 ^ 63) ≤ v ∧ v ≤ 2 ^ 63 - 1 then some v else none

/-- `EntryID::from_slug`: split on `'_'`, parse every piece as `i64`,
failing if any piece fails. -/
def from_slug (cs : List Char) : Option EntryID :=
  (splitUnderscore cs).mapM parseI64

/-! ## FieldSchema (src/data.rs) -/

/-- `FieldSchema`: `field_ids : BTreeMap<String, FieldID>`,
`field_names : BTreeMap<FieldID, String>`, `searchable : BTreeSet<FieldID>`.
The maps are modelled as association lists; `insert` only ever appends keys
larger than all existing `field_names` keys, so appending coincides with the
B-tree's sorted insertion there, and for `field_ids`/`searchable` only
lookup and membership are observable. -/
structure FieldSchema where
  field_ids : List (String × Nat)
  field_names : List (Nat × String)
  searchable : List Nat
deriving DecidableEq, Repr

namespace FieldSchema

/-- `FieldSchema::new`. -/
def new : FieldSchema := ⟨[], [], []⟩

/-- `FieldSchema::get_id`. -/
def get_id (s : FieldSchema) (field_name : String) : Option Nat :=
  (s.field_ids.find? (fun p => p.1 == field_name)).map (·.2)

/-- `FieldSchema::insert(field_name, searchable)`: return the existing id if
the name is present; otherwise assign `last field_names key + 1` (or 0),
record it in both maps and, if requested, in the searchable set. -/
def insert (s : FieldSchema) (field_name : String) (searchable : Bool) :
    Nat × FieldSchema :=
  match (s.field_ids.find? (fun p => p.1 == field_name)).map (·.2) with
  | some field_id => (field_id, s)
  | none =>
    let next_id :=
      match s.field_names.getLast? with
      | some kv => kv.1 + 1
      | none => 0
    (next_id,
      { field_ids := s.field_ids ++ [(field_name, next_id)]
        field_names := s.field_names ++ [(next_id, field_name)]
        searchable := if searchable then s.searchable ++ [next_id] else s.searchable })

/-- `FieldSchema::contains_name`. -/
def contains_name (s : FieldSchema) (field_name : String) : Bool :=
  (s.field_ids.find? (fun p => p.1 == field_name)).isSome

/-- The `BTreeMap` representation invariant of the model: `field_names` keys
are strictly increasing (B-tree key order), and every id recorded in
`field_ids` is a `field_names` key. -/
def Wf (s : FieldSchema) : Prop :=
  List.Chain' (· < ·) (s.field_names.map Prod.fst) ∧
    ∀ p ∈ s.field_ids, p.2 ∈ s.field_names.map Prod.fst

end FieldSchema

/-! ## Tiles (src/data.rs) -/

/-- `TileID(pub Interval)`. -/
structure TileID where
  val : Interval
deriving DecidableEq, Repr

/-- `TileSet { tiles: Vec<Vec<TileID>> }`. -/
structure TileSet where
  tiles : List (List TileID)
deriving DecidableEq, Repr

/-- `DataSourceInfo` (the fields the claims touch). -/
structure DataSourceInfo where
  entry_info : EntryInfo
  interval : Interval
  tile_set : TileSet
  field_schema : FieldSchema

/-! ## Merge adapter (src/merge_data.rs) -/

/-- `MergeDeferredDataSource::merge_entry`: both sides must be `Panel`s with
no summary (`unreachable!()` / `assert!` otherwise); slots concatenate,
names come from the first. -/
def merge_entry : EntryInfo → EntryInfo → Option EntryInfo
  | .panel short_name long_name first_summary slots,
    .panel _ _ second_summary second_slots =>
    match first_summary, second_summary with
    | none, none => some (.panel short_name long_name none (slots ++ second_slots))
    | _, _ => none
  | _, _ => none

/-- Level-0 slot count of an info's `entry_info`, which `compute_mapping`
requires to be a `Panel` (`unreachable!()` otherwise). -/
def slotLen (info : DataSourceInfo) : Option Nat :=
  match info.entry_info with
  | .panel _ _ _ slots => some slots.length
  | _ => none

/-- The prefix-sum loop of `compute_mapping`. -/
def prefixSums : List Nat → Nat → List Nat
  | [], _ => []
  | l :: ls, sum => sum :: prefixSums ls (sum + l)

/-- `MergeDeferredDataSource::compute_mapping`: offset of each child's first
level-0 slot in the merged numbering. -/
def compute_mapping (source_infos : List DataSourceInfo) : Option (List Nat) :=
  (source_infos.mapM slotLen).map (fun ls => prefixSums ls 0)

/-- Left-reduce a non-empty list with `merge_entry` (`Iterator::reduce`). -/
def reduceMergeEntry : List EntryInfo → Option EntryInfo
  | [] => none
  | e :: es => es.foldlM merge_entry e

/-- `MergeDeferredDataSource::merge_infos`: asserts the list is non-empty and
all tile sets and field schemas equal the first's; unions the intervals and
merges the entry trees. -/
def merge_infos (source_infos : List DataSourceInfo) : Option DataSourceInfo :=
  match source_infos with
  | [] => none
  | first :: rest =>
    let tile_set := first.tile_set
    let field_schema := first.field_schema
    if (first :: rest).all
        (fun i => decide (i.tile_set = tile_set) && decide (i.field_schema = field_schema)) then
      let interval := (rest.map (·.interval)).foldl Interval.union first.interval
      ((first :: rest).map (·.entry_info) |> reduceMergeEntry).map
        (fun entry_info => ⟨entry_info, interval, tile_set, field_schema⟩)
    else none

/-- The merge adapter's mutable state relevant to `get_infos`: the per-child
queues of undelivered infos and the current offset `mapping`. -/
structure MergeState where
  infos : List (List DataSourceInfo)
  mapping : List Nat

/-- One round of `self.infos.iter_mut().map(|infos| infos.pop_front().unwrap())`:
pop the front of every queue, panicking (`none`) if any queue is empty. -/
def popFront1 (q : List DataSourceInfo) : Option (DataSourceInfo × List DataSourceInfo) :=
  match q with
  | [] => none
  | h :: t => some (h, t)

/-- Pop the front of every queue, panicking (`none`) if any queue is empty. -/
def popFronts (queues : List (List DataSourceInfo)) :
    Option (List DataSourceInfo × List (List DataSourceInfo)) :=
  (queues.mapM popFront1).map
    (fun pairs => (pairs.map Prod.fst, pairs.map Prod.snd))

/-- The `for _ in 0..max_available` loop body of `get_infos`: pop one info per
child, recompute the mapping, merge, repeat. -/
def getInfosRounds : Nat → MergeState → Option (List DataSourceInfo × MergeState)
  | 0, st => some ([], st)
  | k + 1, st =>
    match popFronts st.infos with
    | none => none
    | some (fronts, rest) =>
      match compute_mapping fronts with
      | none => none
      | some mapping =>
        match merge_infos fronts with
        | none => none
        | some merged =>
          (getInfosRounds k ⟨rest, mapping⟩).map
            (fun (more, st') => (merged :: more, st'))

/-- `MergeDeferredDataSource::get_infos`: extend each child's queue with what
that child delivered, take the MAXIMUM queue length, and run that many merge
rounds (`max().unwrap()` is safe: the constructor asserts at least one
child, and `foldl max 0` agrees with it on non-empty lists). -/
def get_infos (incoming : List (List DataSourceInfo)) (st : MergeState) :
    Option (List DataSourceInfo × MergeState) :=
  let queues := List.zipWith (· ++ ·) st.infos incoming
  let max_available := (queues.map List.length).foldl max 0
  getInfosRounds max_available ⟨queues, st.mapping⟩

/-- `MergeDeferredDataSource::map_src_to_dst_entry`:
`src_entry.shift_level0(self.mapping[idx] as i64)`. -/
def map_src_to_dst_entry (mapping : List Nat) (idx : Nat) (src_entry : EntryID) :
    Option EntryID :=
  match mapping.get? idx with
  | none => none
  | some offset => src_entry.shift_level0 (offset : Int)

/-- `MergeDeferredDataSource::map_dst_to_src_entry`: the first path element
must be a non-summary slot (`unreachable!()` otherwise); the child index is
`self.mapping.partition_point(|&offset| offset < level0)` — for the sorted
`mapping` this is the number of leading offsets `< level0` — and the entry
is shifted down by `self.mapping[idx]`. -/
def map_dst_to_src_entry (mapping : List Nat) (dst_entry : EntryID) :
    Option (Nat × EntryID) :=
  match EntryID.index dst_entry 0 with
  | some (.Slot level0) =>
    let idx := (mapping.takeWhile (fun offset => decide (offset < level0))).length
    match mapping.get? idx with
    | none => none
    | some offset =>
      (dst_entry.shift_level0 (-(offset : Int))).map (fun e => (idx, e))
  | _ => none

/-! ## Request counting (src/deferred_data.rs `CountingDeferredDataSource`)

`outstanding_requests : u64` is incremented by one in `start_request` (called
by every `fetch_*`) and decremented by the length of the returned result
vector in `finish_request` (called by every `get_*`), after
`assert!(self.outstanding_requests >= count)`. The counter is modelled as
`Int` so that "never goes below zero" is expressible; an event trace
interleaves submissions and result batches. -/

inductive CountEvent where
  /-- one `fetch_*` call, i.e. one `start_request` -/
  | fetch
  /-- one `get_*` call whose inner source returned `n` results,
  i.e. `finish_request` on a vector of length `n` -/
  | deliver (n : Nat)
deriving DecidableEq, Repr

/-- Run a trace of fetches and gets over the counter; `none` models the
`assert!(outstanding >= count)` failure. -/
def runCount : List CountEvent → Int → Option Int
  | [], outstanding => some outstanding
  | .fetch :: t, outstanding => runCount t (outstanding + 1)
  | .deliver n :: t, outstanding =>
    if (n : Int) ≤ outstanding then runCount t (outstanding - n) else none

/-- Number of `fetch_*` events in a trace. -/
def countFetches : List CountEvent → Nat
  | [] => 0
  | .fetch :: t => countFetches t + 1
  | .deliver _ :: t => countFetches t

/-- Total number of results returned across the trace's `get_*` events. -/
def countReturns : List CountEvent → Nat
  | [] => 0
  | .fetch :: t => countReturns t
  | .deliver n :: t => n + countReturns t

/-! ## Archive writer tile pyramid (src/archive_data.rs `write`) -/

/-- The tile generation for one pyramid level of
`DataSourceArchiveWriter::write`: `num_tiles = branch_factor.pow(level)`
tiles with `start = duration*i/num_tiles`, `stop = duration*(i+1)/num_tiles`
in `i64` arithmetic over `duration = info.interval.duration_ns()`. -/
def archiveLevelTiles (total : Interval) (branch_factor : Nat) (level : Nat) :
    List TileID :=
  let num_tiles : Int := (branch_factor ^ level : Nat)
  let duration := total.duration_ns
  (List.range (branch_factor ^ level)).map fun i : Nat =>
    ⟨⟨⟨Int.tdiv (duration * (i : Int)) num_tiles⟩,
      ⟨Int.tdiv (duration * ((i : Int) + 1)) num_tiles⟩⟩⟩

/-- The `tile_set` stored into `info` by `write()`: one entry per
`level in 0..levels`. -/
def archiveTileSet (total : Interval) (levels branch_factor : Nat) : TileSet :=
  ⟨(List.range levels).map (archiveLevelTiles total branch_factor)⟩

/-! ## Tile-pyramid selector (src/app.rs `Config::request_tiles`) -/

/-- The `min_by_key` score of one level: `d = duration of the level's first
tile` (`first().unwrap()` panics on an empty level), then
`if d < request_duration { request_duration / d } else { d / request_duration }`
in `i64` arithmetic — division by zero panics. -/
def levelScore (request_duration : Int) (level : List TileID) : Option Int :=
  match level.head? with
  | none => none
  | some first =>
    let d := first.val.duration_ns
    if d < request_duration then
      if d = 0 then none else some (Int.tdiv request_duration d)
    else
      if request_duration = 0 then none else some (Int.tdiv d request_duration)

/-- One comparison step of `min_by_key`: keep the earlier level unless the
candidate's score is strictly smaller; a panic while scoring propagates. -/
def chooseStep (request_duration : Int) (best cand : List TileID) :
    Option (List TileID) :=
  match levelScore request_duration best, levelScore request_duration cand with
  | some kb, some kc => some (if kc < kb then cand else best)
  | _, _ => none

/-- `min_by_key` over the levels: first minimal score wins ties; a panic
while scoring any level propagates. -/
def chooseMinLevel (request_duration : Int) :
    List (List TileID) → Option (List TileID)
  | [] => none
  | l :: ls => ls.foldlM (chooseStep request_duration) l

/-- `Config::request_tiles` on a fresh request (the memoization on
`last_request_interval` only replays a previous identical request and is not
modelled): clamp the view to the total interval; a dynamic profile (empty
tile set) returns the clamped request as one tile; a static profile picks
the level with minimal score and filters it to the tiles overlapping the
request. -/
def request_tiles (tile_set : TileSet) (total view_interval : Interval) :
    Option (List TileID) :=
  let request_interval := view_interval.intersection total
  if tile_set.tiles.isEmpty then some [⟨request_interval⟩]
  else
    let request_duration := request_interval.duration_ns
    (chooseMinLevel request_duration tile_set.tiles).map
      (fun chosen_level =>
        chosen_level.filter (fun tile => decide (request_interval.overlaps tile.val)))

/-! ## Specification-side predicates used by the theorems -/

/-- The spec's resolution rule for `EntryInfo::get`: "every element of the
EntryID path resolves to an existing child of the node reached so far (a
Summary element resolves to a present Panel summary; a slot element resolves
to an in-range slot of a Panel)". -/
inductive Resolves : EntryInfo → List Int → EntryInfo → Prop
  | nil (info : EntryInfo) : Resolves info [] info
  | summ {sn ln : String} {s : EntryInfo} {slots : List EntryInfo}
      {v : Int} {rest : List Int} {node : EntryInfo}
      (hv : v < 0) (h : Resolves s rest node) :
      Resolves (.panel sn ln (some s) slots) (v :: rest) node
  | slot {sn ln : String} {summ : Option EntryInfo} {slots : List EntryInfo}
      {v : Int} {rest : List Int} {node child : EntryInfo}
      (hv : 0 ≤ v) (hc : List.get? slots v.toNat = some child)
      (h : Resolves child rest node) :
      Resolves (.panel sn ln summ slots) (v :: rest) node

/-- The spec's structural invariant on entry trees: a Panel's `summary`
child, if present, is of variant Summary. -/
def WfEntry : EntryInfo → Prop
  | .panel _ _ summ slots =>
    (∀ c ∈ summ, ∃ k, c = EntryInfo.summary k) ∧
      ∀ s ∈ slots.attach, WfEntry s.1
  | _ => True
decreasing_by
  have := List.sizeOf_lt_of_mem s.2
  simp only [EntryInfo.panel.sizeOf_spec]
  omega

/-! ## Concrete inputs used by the counterexamples and failing-input
evaluations -/

/-- A child data source info whose root panel has 2 level-0 slots. -/
def childInfoA : DataSourceInfo :=
  ⟨.panel "root" "Root" none [.slot "s0" "Slot 0" 1, .slot "s1" "Slot 1" 1],
    ⟨⟨0⟩, ⟨1000⟩⟩, ⟨[]⟩, FieldSchema.new⟩

/-- A child data source info whose root panel has 3 level-0 slots. -/
def childInfoB : DataSourceInfo :=
  ⟨.panel "root" "Root" none
      [.slot "t0" "Slot 0" 1, .slot "t1" "Slot 1" 1, .slot "t2" "Slot 2" 1],
    ⟨⟨0⟩, ⟨2000⟩⟩, ⟨[]⟩, FieldSchema.new⟩

/-! # Theorems -/

/-- Accounting lemma for `CountingDeferredDataSource`: starting from a
non-negative counter, a trace that runs without tripping the assertion ends
non-negative, at `start + fetches - returns`. -/
theorem runCount_spec (t : List CountEvent) (o₀ : Int) (h0 : 0 ≤ o₀) :
    ∀ o, runCount t o₀ = some o →
      0 ≤ o ∧ o = o₀ + countFetches t - countReturns t := by
  induction t generalizing o₀ with
  | nil =>
    intro o h
    simp only [runCount, Option.some.injEq] at h
    subst h
    simp [countFetches, countReturns]
    omega
  | cons e t ih =>
    intro o h
    cases e with
    | fetch =>
      have := ih (o₀ + 1) (by omega) o (by simpa [runCount] using h)
      simp only [countFetches, countReturns]
      push_cast
      omega
    | deliver n =>
      simp only [runCount] at h
      split at h
      · have hle : (n : Int) ≤ o₀ := by assumption
        have := ih (o₀ - n) (by omega) o h
        simp only [countFetches, countReturns]
        push_cast
        omega
      · exact absurd h (by simp)

/-- C6: for every operation sequence on a `CountingDeferredDataSource`, each
`fetch_*` adds one to `outstanding_requests`, each `get_*` subtracts the
number of results it returns, and the counter never goes below zero (returns
never exceed submits); submitting 7 fetches and draining 3, then 4, then 0
results passes through counter values 7, 4, 0, 0. -/
theorem c6_outstanding_request_accounting :
    (∀ (t : List CountEvent) (o : Int), runCount t 0 = some o →
        0 ≤ o ∧ o = countFetches t - countReturns t) ∧
    runCount (List.replicate 7 .fetch) 0 = some 7 ∧
    runCount (List.replicate 7 .fetch ++ [.deliver 3]) 0 = some 4 ∧
    runCount (List.replicate 7 .fetch ++ [.deliver 3, .deliver 4]) 0 = some 0 ∧
    runCount (List.replicate 7 .fetch ++ [.deliver 3, .deliver 4, .deliver 0]) 0 =
      some 0 := by
  refine ⟨fun t o h => ?_, by decide, by decide, by decide, by decide⟩
  simpa using runCount_spec t 0 le_rfl o h

/-- C5 counterexample: the claim "intersection, union, grow(n), translate(n)
preserve `start ≤ stop` for all valid inputs and every integer n" fails at
the valid intervals `[0,2)` and `[5,6)` with `n = -2`: their intersection is
`[5,2)` and `[0,2).grow(-2)` is `[2,0)`. -/
theorem c5_invariant_counterexample :
    Interval.valid ⟨⟨0⟩, ⟨2⟩⟩ ∧ Interval.valid ⟨⟨5⟩, ⟨6⟩⟩ ∧
    ¬ Interval.valid (Interval.intersection ⟨⟨0⟩, ⟨2⟩⟩ ⟨⟨5⟩, ⟨6⟩⟩) ∧
    ¬ Interval.valid (Interval.grow ⟨⟨0⟩, ⟨2⟩⟩ (-2)) := by decide

/-- C5 (amended): for valid `a` and `b`, `union` and `translate` always
preserve `start ≤ stop`; `intersection` preserves it when the two intervals
overlap; `grow n` preserves it for `n ≥ 0`. -/
theorem c5_interval_ops_validity (a b : Interval) (n : Int)
    (ha : a.valid) (hb : b.valid) :
    (a.union b).valid ∧ (a.translate n).valid ∧
    (a.overlaps b → (a.intersection b).valid) ∧
    (0 ≤ n → (a.grow n).valid) := by
  obtain ⟨⟨sa⟩, ⟨ea⟩⟩ := a
  obtain ⟨⟨sb⟩, ⟨eb⟩⟩ := b
  simp only [Interval.valid, Interval.union, Interval.translate, Interval.intersection,
    Interval.grow, Interval.overlaps] at *
  refine ⟨?_, ?_, ?_, ?_⟩ <;> intros <;> simp_all <;> omega

/-- C5 witness: the amended statement at `[0,10)`, `[5,15)`, `n = 3`. -/
theorem c5_witness :
    (Interval.union ⟨⟨0⟩, ⟨10⟩⟩ ⟨⟨5⟩, ⟨15⟩⟩).valid ∧
    (Interval.translate ⟨⟨0⟩, ⟨10⟩⟩ 3).valid ∧
    (Interval.overlaps ⟨⟨0⟩, ⟨10⟩⟩ ⟨⟨5⟩, ⟨15⟩⟩ →
      (Interval.intersection ⟨⟨0⟩, ⟨10⟩⟩ ⟨⟨5⟩, ⟨15⟩⟩).valid) ∧
    (0 ≤ (3 : Int) → (Interval.grow ⟨⟨0⟩, ⟨10⟩⟩ 3).valid) :=
  c5_interval_ops_validity ⟨⟨0⟩, ⟨10⟩⟩ ⟨⟨5⟩, ⟨15⟩⟩ 3 (by decide) (by decide)

/-- C7 counterexample: `Timestamp::parse` rejects both of the spec's
digit-grouped strings (everything after the first character that is neither
a digit nor `'.'` is taken as the unit, so `"000 000 s"` is an invalid
unit), and the interval the spec intends does not display as the claimed
string. -/
theorem c7_parse_format_counterexample :
    timestampParseOutcome "123.000 000 000 s" = some .InvalidUnit ∧
    timestampParseOutcome "123.456 789 012 s" = some .InvalidUnit ∧
    intervalDisplay ⟨⟨123000000000⟩, ⟨123456789012⟩⟩ ≠
      "from 123.000 000 000 to 123.456 789 012 s (duration: 456.789 012 ms)" := by
  decide

/-- C7 (amended): both parses fail with `InvalidUnit`, and the interval from
123.000 s to 123.456789012 s displays as
`"from 123.000 to 123.456 s (duration: 456.789 ms)"` (three digits after
the separator, because the duration is at least a millisecond — this is the
repository's own `interval_display::test_s_duration_ms` vector). -/
theorem c7_parse_format_actual :
    timestampParseOutcome "123.000 000 000 s" = some .InvalidUnit ∧
    timestampParseOutcome "123.456 789 012 s" = some .InvalidUnit ∧
    intervalDisplay ⟨⟨123000000000⟩, ⟨123456789012⟩⟩ =
      "from 123.000 to 123.456 s (duration: 456.789 ms)" := by decide

/-- C1: with two children of 2 and 3 level-0 slots the computed mapping is
`[0, 2]`, but `map_dst_to_src_entry` panics on the merged entry `[3]`
(`partition_point(|&offset| offset < 3)` returns 2 and `self.mapping[2]` is
out of bounds) and on `[1]` (`partition_point` returns 1, and shifting down
by `mapping[1] = 2` trips `shift_level0`'s `result.0[0] >= 0` assertion);
the claimed route `[3] → (child 1, [1])` and the round trip both fail, even
though the inverse direction `map_src_to_dst_entry(1, [1]) = [3]` works. -/
theorem c1_merge_roundtrip_panics :
    compute_mapping [childInfoA, childInfoB] = some [0, 2] ∧
    map_dst_to_src_entry [0, 2] [3] = none ∧
    map_dst_to_src_entry [0, 2] [1] = none ∧
    map_src_to_dst_entry [0, 2] 1 [1] = some [3] := by
  exact ⟨rfl, by decide, by decide, by decide⟩

/-- C2: `MergeDeferredDataSource::get_infos` runs
`max(queue lengths)` merge rounds and `pop_front().unwrap()`s every queue in
each round, so it panics — rather than returning an empty list — as soon as
one child has delivered an info while another has not; when both children
have delivered one info it does produce exactly one merged info. -/
theorem c2_get_infos_partial_delivery_panics :
    get_infos [[childInfoA], []] ⟨[[], []], []⟩ = none ∧
    (get_infos [[childInfoA], [childInfoB]] ⟨[[], []], []⟩).map
        (fun r => (r.1.length, r.2.infos.map List.length)) = some (1, [0, 0]) :=
  ⟨rfl, rfl⟩

/-- C8 counterexample: `EntryInfo::get` is not the claimed total function:
indexing into a `Slot` node panics (`panic!("EntryID and EntryInfo do not
match")`) instead of returning `None`, and a Summary element returns the
panel's summary immediately even when unresolvable path elements remain. -/
theorem c8_get_counterexample :
    entryGet (.slot "leaf" "Leaf" 1) [0] = none ∧
    entryGet (.panel "p" "P" (some (.summary 7)) [.slot "s" "S" 1]) [-1, 0] =
      some (some (.summary 7)) :=
  ⟨rfl, rfl⟩

/-- C8 (amended): on a well-formed tree (Panel summaries are of variant
Summary), `get` returns `Some node` for every path that resolves per the
spec's rule; a Summary element at a Panel returns the summary immediately
(ignoring any remaining elements, `None` if absent); an out-of-range slot
element returns `None`; but a path element applied to a `Slot` or `Summary`
node panics. -/
theorem c8_get_characterization :
    (∀ (info : EntryInfo) (path : List Int) (node : EntryInfo),
        WfEntry info → Resolves info path node →
        entryGet info path = some (some node)) ∧
    (∀ (sn ln : String) (summ : Option EntryInfo) (slots : List EntryInfo)
        (v : Int) (rest : List Int), v < 0 →
        entryGet (.panel sn ln summ slots) (v :: rest) = some summ) ∧
    (∀ (sn ln : String) (summ : Option EntryInfo) (slots : List EntryInfo)
        (v : Int) (rest : List Int), 0 ≤ v → List.get? slots v.toNat = none →
        entryGet (.panel sn ln summ slots) (v :: rest) = some none) ∧
    (∀ (sn ln : String) (mr : Nat) (v : Int) (rest : List Int),
        entryGet (.slot sn ln mr) (v :: rest) = none) ∧
    (∀ (c : Nat) (v : Int) (rest : List Int),
        entryGet (.summary c) (v :: rest) = none) := by
  refine ⟨?_, ?_, ?_, fun _ _ _ _ _ => rfl, fun _ _ _ => rfl⟩
  · intro info path node hwf hres
    revert hwf
    induction hres with
    | nil info => intro _; rfl
    | @summ sn ln s slots v rest node hv h ih =>
      intro hwf
      rw [WfEntry] at hwf
      obtain ⟨k, rfl⟩ := hwf.1 s (by simp)
      cases h with
      | nil =>
        show entryGetAux (v :: []) _ = _
        rw [entryGetAux, if_neg (not_le.mpr hv)]
    | @slot sn ln summ slots v rest node child hv hc h ih =>
      intro hwf
      rw [WfEntry] at hwf
      have hchild : WfEntry child :=
        hwf.2 ⟨child, List.get?_mem hc⟩ (List.mem_attach _ _)
      show entryGetAux (v :: rest) _ = _
      rw [entryGetAux, if_pos hv, hc]
      exact ih hchild
  · intro sn ln summ slots v rest hv
    show entryGetAux (v :: rest) _ = _
    rw [entryGetAux, if_neg (not_le.mpr hv)]
  · intro sn ln summ slots v rest hv hnone
    show entryGetAux (v :: rest) _ = _
    rw [entryGetAux, if_pos hv, hnone]

/-- C3 counterexample: the writer computes tiles from `duration` alone
(`start = duration*i/num_tiles`), so for total interval `[5, 15)` the single
level-0 tile is `[0, 10)`: it does not start at `T.start = 5` (nor stop at
`T.stop = 15`), contradicting "the first tile starts at T.start, the last
tile stops at T.stop". -/
theorem c3_tile_pyramid_counterexample :
    (archiveLevelTiles ⟨⟨5⟩, ⟨15⟩⟩ 2 0).map (fun t => t.val) = [⟨⟨0⟩, ⟨10⟩⟩] ∧
    (⟨0⟩ : Timestamp) ≠ (⟨5⟩ : Timestamp) ∧ (⟨10⟩ : Timestamp) ≠ (⟨15⟩ : Timestamp) := by
  decide

/-- C3 (amended): for `levels ≥ 1`, `branch_factor ≥ 2` and a non-negative
total duration, the tile set written by `write()` has exactly `levels`
levels; level ℓ is exactly `branch_factor^ℓ` tiles that partition the
zero-based interval `[0, duration)` (which equals T exactly when
`T.start = 0`): the first tile starts at 0, the last stops at `duration`,
consecutive tiles abut exactly, and every tile satisfies `start ≤ stop`. -/
theorem c3_archive_tile_pyramid (total : Interval) (levels branch_factor : Nat)
    (hL : 1 ≤ levels) (hB : 2 ≤ branch_factor) (hd : 0 ≤ total.duration_ns) :
    (archiveTileSet total levels branch_factor).tiles.length = levels ∧
    ∀ level, level < levels →
      (archiveTileSet total levels branch_factor).tiles.get? level =
        some (archiveLevelTiles total branch_factor level) ∧
      (archiveLevelTiles total branch_factor level).length = branch_factor ^ level ∧
      (archiveLevelTiles total branch_factor level).head?.map
        (fun t => t.val.start.val) = some 0 ∧
      (archiveLevelTiles total branch_factor level).getLast?.map
        (fun t => t.val.stop.val) = some total.duration_ns ∧
      (∀ i t t', (archiveLevelTiles total branch_factor level).get? i = some t →
        (archiveLevelTiles total branch_factor level).get? (i + 1) = some t' →
        t.val.stop = t'.val.start) ∧
      (∀ t ∈ archiveLevelTiles total branch_factor level, t.val.valid) := by
  have hBpos : 0 < branch_factor := by omega
  constructor
  · simp only [archiveTileSet]
    rw [List.length_map, List.length_range]
  intro level hlevel
  have hNpos : 0 < branch_factor ^ level := pow_pos hBpos level
  have hNne : ((branch_factor ^ level : Nat) : Int) ≠ 0 := by exact_mod_cast hNpos.ne'
  have hget : ∀ i, i < branch_factor ^ level →
      (archiveLevelTiles total branch_factor level).get? i =
        some ⟨⟨⟨Int.tdiv (total.duration_ns * i) ((branch_factor ^ level : Nat) : Int)⟩,
          ⟨Int.tdiv (total.duration_ns * (i + 1)) ((branch_factor ^ level : Nat) : Int)⟩⟩⟩ := by
    intro i hi
    simp only [archiveLevelTiles]
    rw [List.get?_map, List.get?_range hi]
    rfl
  have hlen : (archiveLevelTiles total branch_factor level).length =
      branch_factor ^ level := by
    simp only [archiveLevelTiles]
    rw [List.length_map, List.length_range]
  have hmono : ∀ a b : Int, 0 ≤ a → a ≤ b →
      Int.tdiv (total.duration_ns * a) ((branch_factor ^ level : Nat) : Int) ≤
        Int.tdiv (total.duration_ns * b) ((branch_factor ^ level : Nat) : Int) := by
    intro a b ha hab
    have hNnn : (0 : Int) ≤ ((branch_factor ^ level : Nat) : Int) := by positivity
    rw [Int.tdiv_eq_ediv (mul_nonneg hd ha) hNnn,
      Int.tdiv_eq_ediv (mul_nonneg hd (ha.trans hab)) hNnn]
    exact Int.ediv_le_ediv (by exact_mod_cast hNpos)
      (mul_le_mul_of_nonneg_left hab hd)
  refine ⟨?_, hlen, ?_, ?_, ?_, ?_⟩
  · simp only [archiveTileSet]
    rw [List.get?_map, List.get?_range hlevel]
    rfl
  · rw [← List.get?_zero, hget 0 hNpos]
    simp [Int.zero_tdiv]
  · rw [List.getLast?_eq_get?, hlen,
      hget (branch_factor ^ level - 1) (by omega)]
    have hcast : ((branch_factor ^ level - 1 : Nat) : Int) + 1 =
        ((branch_factor ^ level : Nat) : Int) := by
      rw [Nat.cast_sub (by omega : 1 ≤ branch_factor ^ level)]
      ring
    simp only [Option.map_some']
    rw [hcast, Int.mul_tdiv_cancel total.duration_ns hNne]
  · intro i t t' ht ht'
    have hi : i + 1 < branch_factor ^ level := by
      by_contra hcon
      have hnone : (archiveLevelTiles total branch_factor level).get? (i + 1) = none :=
        List.get?_eq_none.mpr (by rw [hlen]; omega)
      rw [hnone] at ht'
      exact Option.noConfusion ht'
    rw [hget i (by omega)] at ht
    rw [hget (i + 1) (by omega)] at ht'
    cases ht; cases ht'
    show Timestamp.mk _ = Timestamp.mk _
    have : ((i + 1 : Nat) : Int) = (i : Int) + 1 := by push_cast; ring
    rw [this]
  · intro t ht
    obtain ⟨n, hn⟩ := List.mem_iff_get?.mp ht
    have hnlt : n < branch_factor ^ level := by
      rcases List.get?_eq_some.mp hn with ⟨hbound, _⟩
      rwa [hlen] at hbound
    rw [hget n hnlt] at hn
    cases hn
    show Int.tdiv _ _ ≤ Int.tdiv _ _
    exact hmono n (n + 1) (by positivity) (by linarith)

/-- C3 witness: the amended statement at total `[0, 10)`, 2 levels,
branch factor 2. -/
theorem c3_witness :
    (archiveTileSet ⟨⟨0⟩, ⟨10⟩⟩ 2 2).tiles.length = 2 :=
  (c3_archive_tile_pyramid ⟨⟨0⟩, ⟨10⟩⟩ 2 2 (by decide) (by decide) (by decide)).1

/-- In a strictly increasing list every element is at most the last one. -/
theorem chain_lt_le_getLast :
    ∀ {l : List Nat}, List.Chain' (· < ·) l →
      ∀ k ∈ l, ∀ m, l.getLast? = some m → k ≤ m := by
  intro l
  induction l with
  | nil => intro _ k hk; cases hk
  | cons a t ih =>
    intro hl k hk m hm
    cases t with
    | nil =>
      simp only [List.mem_singleton] at hk
      simp only [List.getLast?_singleton, Option.some.injEq] at hm
      omega
    | cons b t' =>
      rw [List.chain'_cons] at hl
      rw [List.getLast?_cons_cons] at hm
      rcases List.mem_cons.mp hk with rfl | hk'
      · have hb := ih hl.2 b (List.mem_cons_self b t') m hm
        omega
      · exact ih hl.2 k hk' m hm

/-- C10: `FieldSchema::insert` is idempotent on the name — a present name
returns its existing FieldID and leaves the schema untouched — and a new
name receives an id strictly greater than every id in either map, the
representation invariant being preserved. -/
theorem c10_field_schema_insert (s : FieldSchema) (name : String) (b : Bool)
    (hwf : s.Wf) :
    (∀ id, s.get_id name = some id → s.insert name b = (id, s)) ∧
    (s.get_id name = none →
      (∀ k ∈ s.field_names.map Prod.fst, k < (s.insert name b).1) ∧
      (∀ p ∈ s.field_ids, p.2 < (s.insert name b).1) ∧
      (s.insert name b).2.Wf) := by
  constructor
  · intro id hid
    simp only [FieldSchema.get_id] at hid
    simp only [FieldSchema.insert, hid]
  · intro hnone
    simp only [FieldSchema.get_id] at hnone
    obtain ⟨hchain, hids⟩ := hwf
    cases hlast : s.field_names.getLast? with
    | none =>
      have hempty : s.field_names = [] := by
        cases h : s.field_names with
        | nil => rfl
        | cons x xs =>
          rw [h, List.getLast?_eq_getLast_of_ne_nil (by simp)] at hlast
          exact Option.noConfusion hlast
      refine ⟨?_, ?_, ?_⟩
      · intro k hk
        rw [hempty] at hk
        cases hk
      · intro p hp
        have := hids p hp
        rw [hempty] at this
        cases this
      · simp only [FieldSchema.insert, hnone, hlast]
        constructor
        · rw [hempty]
          simp [List.Chain']
        · intro p hp
          rcases List.mem_append.mp hp with hp' | hp'
          · have := hids p hp'
            rw [hempty] at this
            cases this
          · simp only [List.mem_singleton] at hp'
            subst hp'
            rw [hempty]
            simp
    | some kv =>
      have hmax : ∀ k ∈ s.field_names.map Prod.fst, k ≤ kv.1 := by
        intro k hk
        refine chain_lt_le_getLast hchain k hk kv.1 ?_
        rw [List.getLast?_map, hlast]
        rfl
      have hfst : (s.insert name b).1 = kv.1 + 1 := by
        simp only [FieldSchema.insert, hnone, hlast]
      refine ⟨?_, ?_, ?_⟩
      · intro k hk
        rw [hfst]
        exact Nat.lt_succ_of_le (hmax k hk)
      · intro p hp
        rw [hfst]
        exact Nat.lt_succ_of_le (hmax p.2 (hids p hp))
      · simp only [FieldSchema.insert, hnone, hlast]
        constructor
        · rw [List.map_append, List.chain'_append]
          refine ⟨hchain, by simp [List.Chain'], ?_⟩
          intro x hx y hy
          simp only [List.map_cons, List.map_nil, List.head?_cons,
            Option.mem_def, Option.some.injEq] at hy
          subst hy
          have hxmem : x ∈ s.field_names.map Prod.fst := by
            rcases Option.mem_def.mp hx with h
            exact List.get?_mem (by rw [List.getLast?_eq_get?] at h; exact h)
          exact Nat.lt_succ_of_le (hmax x hxmem)
        · intro p hp
          rcases List.mem_append.mp hp with hp' | hp'
          · rw [List.map_append]
            exact List.mem_append_left _ (hids p hp')
          · simp only [List.mem_singleton] at hp'
            subst hp'
            rw [List.map_append]
            exact List.mem_append_right _ (by simp)

/-- C10 witness: a schema holding `"a"` under id 0; re-inserting `"a"`
returns id 0 and the unchanged schema. -/
theorem c10_witness :
    (∀ id, (FieldSchema.new.insert "a" true).2.get_id "a" = some id →
        (FieldSchema.new.insert "a" true).2.insert "a" false =
          (id, (FieldSchema.new.insert "a" true).2)) ∧
    ((FieldSchema.new.insert "a" true).2.get_id "a" = none →
      (∀ k ∈ (FieldSchema.new.insert "a" true).2.field_names.map Prod.fst,
        k < ((FieldSchema.new.insert "a" true).2.insert "a" false).1) ∧
      (∀ p ∈ (FieldSchema.new.insert "a" true).2.field_ids,
        p.2 < ((FieldSchema.new.insert "a" true).2.insert "a" false).1) ∧
      ((FieldSchema.new.insert "a" true).2.insert "a" false).2.Wf) :=
  c10_field_schema_insert (FieldSchema.new.insert "a" true).2 "a" false
    (by
      constructor
      · exact List.chain'_singleton 0
      · intro p hp
        have hfe : (FieldSchema.new.insert "a" true).2.field_ids = [("a", 0)] := rfl
        rw [hfe, List.mem_singleton] at hp
        subst hp
        show (0 : Nat) ∈ [0]
        simp)

/-! ### Slug round-trip lemmas (C9) -/

theorem digitChar_lt10_isDigit : ∀ d, d < 10 → (Nat.digitChar d).isDigit = true := by
  decide

theorem digitChar_lt10_val : ∀ d, d < 10 → (Nat.digitChar d).toNat - 48 = d := by
  decide

theorem isDigit_ne_underscore (c : Char) (h : c.isDigit = true) : c ≠ '_' := by
  intro heq
  subst heq
  exact absurd h (by decide)

theorem isDigit_ne_minus (c : Char) (h : c.isDigit = true) : c ≠ '-' := by
  intro heq
  subst heq
  exact absurd h (by decide)

theorem isDigit_ne_plus (c : Char) (h : c.isDigit = true) : c ≠ '+' := by
  intro heq
  subst heq
  exact absurd h (by decide)

theorem natDigitsAux_isDigit :
    ∀ fuel n c, c ∈ natDigitsAux fuel n → c.isDigit = true := by
  intro fuel
  induction fuel with
  | zero => intro n c hc; cases hc
  | succ fuel ih =>
    intro n c hc
    rw [natDigitsAux] at hc
    split at hc
    · cases hc
    · rcases List.mem_cons.mp hc with rfl | hc'
      · rename_i hn
        exact digitChar_lt10_isDigit _ (Nat.mod_lt _ (by omega))
      · exact ih _ c hc'

theorem digitsVal_append_digit (xs : List Char) (c : Char) :
    digitsVal (xs ++ [c]) = 10 * digitsVal xs + (c.toNat - 48) := by
  unfold digitsVal
  rw [List.foldl_append]
  rfl

theorem digitsVal_natDigitsAux :
    ∀ fuel n, n ≤ fuel → digitsVal ((natDigitsAux fuel n).reverse) = n := by
  intro fuel
  induction fuel with
  | zero =>
    intro n hn
    have : n = 0 := by omega
    subst this
    rfl
  | succ fuel ih =>
    intro n hn
    cases n with
    | zero => rfl
    | succ m =>
      rw [natDigitsAux, if_neg (Nat.succ_ne_zero m), List.reverse_cons,
        digitsVal_append_digit,
        ih ((m + 1) / 10) (by
          have := Nat.div_lt_self (Nat.succ_pos m) (by omega : 1 < 10)
          omega),
        digitChar_lt10_val _ (Nat.mod_lt _ (by omega))]
      exact Nat.div_add_mod (m + 1) 10

theorem renderNat_ne_nil (n : Nat) : renderNat n ≠ [] := by
  unfold renderNat
  split
  · simp
  · rename_i hn
    cases n with
    | zero => exact absurd rfl hn
    | succ m =>
      rw [natDigitsAux, if_neg (Nat.succ_ne_zero m)]
      simp

theorem renderNat_isDigit (n : Nat) (c : Char) (hc : c ∈ renderNat n) :
    c.isDigit = true := by
  unfold renderNat at hc
  split at hc
  · rcases List.mem_singleton.mp hc with rfl
    decide
  · exact natDigitsAux_isDigit n n c (List.mem_reverse.mp hc)

theorem digitsVal_renderNat (n : Nat) : digitsVal (renderNat n) = n := by
  unfold renderNat
  split
  · rename_i hn
    subst hn
    rfl
  · exact digitsVal_natDigitsAux n n le_rfl

theorem renderInt_ne_underscore (v : Int) (c : Char) (hc : c ∈ renderInt v) :
    c ≠ '_' := by
  unfold renderInt at hc
  split at hc
  · rcases List.mem_cons.mp hc with rfl | hc'
    · decide
    · exact isDigit_ne_underscore c (renderNat_isDigit _ c hc')
  · exact isDigit_ne_underscore c (renderNat_isDigit _ c hc)

theorem parseI64_renderInt (v : Int) (hlo : -(2 ^ 63) ≤ v) (hhi : v ≤ 2 ^ 63 - 1) :
    parseI64 (renderInt v) = some v := by
  by_cases hv : v < 0
  · have hrender : renderInt v = '-' :: renderNat v.natAbs := by
      unfold renderInt
      rw [if_pos hv]
    rw [hrender]
    have hdig : (renderNat v.natAbs).all Char.isDigit = true :=
      List.all_eq_true.mpr (fun c hc => renderNat_isDigit _ c hc)
    have hempty : (renderNat v.natAbs).isEmpty = false := by
      cases h : renderNat v.natAbs with
      | nil => exact absurd h (renderNat_ne_nil _)
      | cons _ _ => rfl
    simp only [parseI64, true_or, if_true, hempty, hdig, Bool.not_true, Bool.or_false,
      Bool.false_eq_true, if_false, digitsVal_renderNat]
    have hval : -((v.natAbs : Nat) : Int) = v := by omega
    rw [hval, if_pos ⟨hlo, hhi⟩]
  · push_neg at hv
    have hrender : renderInt v = renderNat v.toNat := by
      unfold renderInt
      rw [if_neg (not_lt.mpr hv)]
    rcases hcs : renderNat v.toNat with _ | ⟨c, rest⟩
    · exact absurd hcs (renderNat_ne_nil _)
    · have hcdig : c.isDigit = true :=
        renderNat_isDigit _ c (by rw [hcs]; exact List.mem_cons_self c rest)
      have hsign : ¬(c = '-' ∨ c = '+') := by
        rintro (h | h)
        · exact isDigit_ne_minus c hcdig h
        · exact isDigit_ne_plus c hcdig h
      have hdig : (c :: rest).all Char.isDigit = true := by
        rw [← hcs]
        exact List.all_eq_true.mpr (fun x hx => renderNat_isDigit _ x hx)
      rw [hrender, hcs]
      simp only [parseI64]
      rw [if_neg hsign, if_neg (isDigit_ne_minus c hcdig)]
      simp only [List.isEmpty_cons, hdig, Bool.not_true, Bool.or_false,
        Bool.false_eq_true, if_false]
      rw [← hcs, digitsVal_renderNat, Int.toNat_of_nonneg hv, if_pos ⟨hlo, hhi⟩]

theorem splitUnderscore_ne_nil : ∀ cs, splitUnderscore cs ≠ [] := by
  intro cs
  induction cs with
  | nil => simp [splitUnderscore]
  | cons c cs ih =>
    rw [splitUnderscore]
    split <;> simp

theorem splitUnderscore_no_sep :
    ∀ cs : List Char, (∀ c ∈ cs, c ≠ '_') → splitUnderscore cs = [cs] := by
  intro cs
  induction cs with
  | nil => intro _; rfl
  | cons c cs ih =>
    intro hno
    rw [splitUnderscore]
    simp only [ih (fun x hx => hno x (List.mem_cons_of_mem c hx))]
    rw [if_neg (hno c (List.mem_cons_self c cs))]
    simp

theorem splitUnderscore_append :
    ∀ p rest : List Char, (∀ c ∈ p, c ≠ '_') →
      splitUnderscore (p ++ '_' :: rest) = p :: splitUnderscore rest := by
  intro p
  induction p with
  | nil =>
    intro rest _
    rw [List.nil_append, splitUnderscore, if_pos rfl]
  | cons c p ih =>
    intro rest hno
    rw [List.cons_append, splitUnderscore]
    simp only [ih rest (fun x hx => hno x (List.mem_cons_of_mem c hx))]
    rw [if_neg (hno c (List.mem_cons_self c p))]
    simp

theorem intercalate_underscore_singleton (x : List Char) :
    List.intercalate ['_'] [x] = x := by
  simp [List.intercalate, List.intersperse]

theorem intercalate_underscore_cons (x y : List Char) (t : List (List Char)) :
    List.intercalate ['_'] (x :: y :: t) =
      x ++ '_' :: List.intercalate ['_'] (y :: t) := by
  simp [List.intercalate, List.intersperse]

theorem splitUnderscore_intercalate :
    ∀ (l : List (List Char)), l ≠ [] → (∀ p ∈ l, ∀ c ∈ p, c ≠ '_') →
      splitUnderscore (List.intercalate ['_'] l) = l := by
  intro l
  induction l with
  | nil => intro h; exact absurd rfl h
  | cons x t ih =>
    intro _ hno
    cases t with
    | nil =>
      rw [intercalate_underscore_singleton]
      exact splitUnderscore_no_sep x (hno x (List.mem_cons_self x []))
    | cons y t' =>
      rw [intercalate_underscore_cons,
        splitUnderscore_append x _ (hno x (List.mem_cons_self x _)),
        ih (by simp) (fun p hp => hno p (List.mem_cons_of_mem x hp))]

/-- C9 counterexample: the root EntryID (empty path) renders to the empty
slug, which `from_slug` rejects (`"".split('_')` yields one empty piece and
`"".parse::<i64>()` fails), so `from_slug(slug(root)) ≠ Ok(root)`. -/
theorem c9_slug_counterexample :
    from_slug (entryIDSlug ([] : EntryID)) ≠ some ([] : EntryID) := by decide

/-- C9 (amended): for every non-empty EntryID (elements being `i64` values),
parsing the slug rendering with `from_slug` returns the original EntryID. -/
theorem c9_slug_roundtrip (e : EntryID) (hne : e ≠ [])
    (hrange : ∀ v ∈ e, -(2 ^ 63) ≤ v ∧ v ≤ 2 ^ 63 - 1) :
    from_slug (entryIDSlug e) = some e := by
  unfold from_slug entryIDSlug
  rw [splitUnderscore_intercalate (e.map renderInt)
    (by
      intro h
      exact hne (List.map_eq_nil.mp h))
    (by
      intro p hp c hc
      obtain ⟨v, _, rfl⟩ := List.mem_map.mp hp
      exact renderInt_ne_underscore v c hc)]
  clear hne
  have hgen : ∀ (l : List Int), (∀ v ∈ l, -(2 ^ 63) ≤ v ∧ v ≤ 2 ^ 63 - 1) →
      (l.map renderInt).mapM parseI64 = some l := by
    intro l
    induction l with
    | nil => intro _; rfl
    | cons v t ih =>
      intro hr
      have hv := hr v (List.mem_cons_self v t)
      rw [List.map_cons, List.mapM_cons, parseI64_renderInt v hv.1 hv.2,
        ih (fun x hx => hr x (List.mem_cons_of_mem v hx))]
      rfl
  exact hgen e hrange

/-- C9 witness: the round trip at the concrete EntryID `[3, -1]`. -/
theorem c9_witness : from_slug (entryIDSlug [3, -1]) = some [3, -1] :=
  c9_slug_roundtrip [3, -1] (by decide) (by decide)

/-- C4 counterexample: for a static source whose single level holds one tile
`[0,1)` over total `[0,10)` and view `[0,10)`, `request_tiles` returns just
that tile, whose union does not contain `V ∩ total` (it misses the point 5),
so the claimed containment fails. -/
theorem c4_request_tiles_counterexample :
    request_tiles ⟨[[⟨⟨⟨0⟩, ⟨1⟩⟩⟩]]⟩ ⟨⟨0⟩, ⟨10⟩⟩ ⟨⟨0⟩, ⟨10⟩⟩ = some [⟨⟨⟨0⟩, ⟨1⟩⟩⟩] ∧
    (Interval.intersection ⟨⟨0⟩, ⟨10⟩⟩ ⟨⟨0⟩, ⟨10⟩⟩).contains ⟨5⟩ ∧
    ¬ (⟨⟨0⟩, ⟨1⟩⟩ : Interval).contains ⟨5⟩ := by decide

/-- `min_by_key` fold invariant: starting from `b` with score `kb`, if every
remaining level scores without panicking, the fold returns a level whose
score is minimal among all of them, and strictly smaller than the score of
every level preceding it (Rust's `min_by_key` keeps the first minimum). -/
theorem chooseFold_spec (R : Int) :
    ∀ (ls : List (List TileID)) (b : List TileID) (kb : Int),
      levelScore R b = some kb →
      (∀ l ∈ ls, ∃ s, levelScore R l = some s) →
      ∃ chosen kc, ls.foldlM (chooseStep R) b = some chosen ∧
        levelScore R chosen = some kc ∧
        (∀ l ∈ ls, ∀ s, levelScore R l = some s → kc ≤ s) ∧
        ((chosen = b ∧ kc = kb) ∨
          (∃ j, ls.get? j = some chosen ∧ kc < kb ∧
            (∀ i, i < j → ∀ l s, ls.get? i = some l →
              levelScore R l = some s → kc < s))) := by
  intro ls
  induction ls with
  | nil =>
    intro b kb hb _
    exact ⟨b, kb, rfl, hb, fun l hl => absurd hl (List.not_mem_nil l),
      Or.inl ⟨rfl, rfl⟩⟩
  | cons c t ih =>
    intro b kb hb hsc
    obtain ⟨sc, hc⟩ := hsc c (List.mem_cons_self c t)
    have hstep : chooseStep R b c = some (if sc < kb then c else b) := by
      unfold chooseStep
      rw [hb, hc]
    have hfold : (c :: t).foldlM (chooseStep R) b =
        t.foldlM (chooseStep R) (if sc < kb then c else b) := by
      rw [List.foldlM_cons, hstep]
      rfl
    by_cases hlt : sc < kb
    · rw [if_pos hlt] at hfold
      obtain ⟨chosen, kc, hrun, hscore, hmin, hdisj⟩ :=
        ih c sc hc (fun l hl => hsc l (List.mem_cons_of_mem c hl))
      refine ⟨chosen, kc, by rw [hfold]; exact hrun, hscore, ?_, ?_⟩
      · intro l hl s hs
        rcases List.mem_cons.mp hl with rfl | hl'
        · have hkc : kc ≤ sc := by
            rcases hdisj with ⟨_, rfl⟩ | ⟨_, _, h, _⟩ <;> [exact le_rfl; exact le_of_lt h]
          rw [hc] at hs
          cases hs
          exact hkc
        · exact hmin l hl' s hs
      · rcases hdisj with ⟨rfl, rfl⟩ | ⟨j, hj, hjlt, hjstrict⟩
        · exact Or.inr ⟨0, rfl, hlt, fun i hi => absurd hi (Nat.not_lt_zero i)⟩
        · refine Or.inr ⟨j + 1, hj, lt_trans hjlt hlt, ?_⟩
          intro i hi l s hil hls
          cases i with
          | zero =>
            simp only [List.get?_cons_zero, Option.some.injEq] at hil
            subst hil
            rw [hc] at hls
            cases hls
            exact hjlt
          | succ i' =>
            exact hjstrict i' (by omega) l s (by simpa using hil) hls
    · rw [if_neg hlt] at hfold
      push_neg at hlt
      obtain ⟨chosen, kc, hrun, hscore, hmin, hdisj⟩ :=
        ih b kb hb (fun l hl => hsc l (List.mem_cons_of_mem c hl))
      refine ⟨chosen, kc, by rw [hfold]; exact hrun, hscore, ?_, ?_⟩
      · intro l hl s hs
        rcases List.mem_cons.mp hl with rfl | hl'
        · have hkc : kc ≤ kb := by
            rcases hdisj with ⟨_, rfl⟩ | ⟨_, _, h, _⟩ <;> [exact le_rfl; exact le_of_lt h]
          rw [hc] at hs
          cases hs
          exact le_trans hkc hlt
        · exact hmin l hl' s hs
      · rcases hdisj with ⟨rfl, rfl⟩ | ⟨j, hj, hjlt, hjstrict⟩
        · exact Or.inl ⟨rfl, rfl⟩
        · refine Or.inr ⟨j + 1, hj, hjlt, ?_⟩
          intro i hi l s hil hls
          cases i with
          | zero =>
            simp only [List.get?_cons_zero, Option.some.injEq] at hil
            subst hil
            rw [hc] at hls
            cases hls
            exact lt_of_lt_of_le hjlt hlt
          | succ i' =>
            exact hjstrict i' (by omega) l s (by simpa using hil) hls


/-- C4 (amended): `request_tiles` on a fresh request: a dynamic source
returns the single tile `V ∩ total`; a static source, provided every level
scores without panicking (non-empty levels, no division by zero), returns
exactly the tiles of the chosen level that overlap `V ∩ total`, where the
chosen level has minimal integer score `R/D if D < R else D/R` and the
first level wins ties; and when every level covers the total interval, the
union of the returned tiles contains `V ∩ total`. -/
theorem c4_request_tiles (tile_set : TileSet) (total view_interval : Interval) :
    (tile_set.tiles = [] →
      request_tiles tile_set total view_interval =
        some [⟨view_interval.intersection total⟩]) ∧
    (tile_set.tiles ≠ [] →
      (∀ lvl ∈ tile_set.tiles,
        ∃ s, levelScore (view_interval.intersection total).duration_ns lvl = some s) →
      ∃ k chosen kc,
        tile_set.tiles.get? k = some chosen ∧
        levelScore (view_interval.intersection total).duration_ns chosen = some kc ∧
        request_tiles tile_set total view_interval =
          some (chosen.filter (fun tile =>
            decide ((view_interval.intersection total).overlaps tile.val))) ∧
        (∀ lvl ∈ tile_set.tiles, ∀ s,
          levelScore (view_interval.intersection total).duration_ns lvl = some s →
          kc ≤ s) ∧
        (∀ j, j < k → ∀ lvl s, tile_set.tiles.get? j = some lvl →
          levelScore (view_interval.intersection total).duration_ns lvl = some s →
          kc < s) ∧
        ((∀ lvl ∈ tile_set.tiles, ∀ p : Int, total.contains ⟨p⟩ →
            ∃ t ∈ lvl, t.val.contains ⟨p⟩) →
          ∀ p : Int, (view_interval.intersection total).contains ⟨p⟩ →
            ∃ t ∈ chosen.filter (fun tile =>
              decide ((view_interval.intersection total).overlaps tile.val)),
              t.val.contains ⟨p⟩)) := by
  constructor
  · intro h
    simp [request_tiles, h]
  · intro hne hsc
    cases htiles : tile_set.tiles with
    | nil => exact absurd htiles hne
    | cons l ls =>
      rw [htiles] at hsc
      obtain ⟨kl, hkl⟩ := hsc l (List.mem_cons_self l ls)
      obtain ⟨chosen, kc, hrun, hscore, hmin, hdisj⟩ :=
        chooseFold_spec (view_interval.intersection total).duration_ns ls l kl hkl
          (fun x hx => hsc x (List.mem_cons_of_mem l hx))
      have hreq : request_tiles tile_set total view_interval =
          some (chosen.filter (fun tile =>
            decide ((view_interval.intersection total).overlaps tile.val))) := by
        unfold request_tiles
        rw [htiles]
        simp only [List.isEmpty_cons, Bool.false_eq_true, if_false, chooseMinLevel]
        rw [hrun]
        rfl
      have hminall : ∀ lvl ∈ l :: ls, ∀ s,
          levelScore (view_interval.intersection total).duration_ns lvl = some s →
          kc ≤ s := by
        intro lvl hl s hs
        rcases List.mem_cons.mp hl with rfl | hl'
        · rw [hkl] at hs
          cases hs
          rcases hdisj with ⟨_, rfl⟩ | ⟨_, _, h, _⟩
          · exact le_rfl
          · exact le_of_lt h
        · exact hmin lvl hl' s hs
      have hcov : (∀ lvl ∈ l :: ls, ∀ p : Int, total.contains ⟨p⟩ →
            ∃ t ∈ lvl, t.val.contains ⟨p⟩) →
          ∀ p : Int, (view_interval.intersection total).contains ⟨p⟩ →
            ∃ t ∈ chosen.filter (fun tile =>
              decide ((view_interval.intersection total).overlaps tile.val)),
              t.val.contains ⟨p⟩ := by
        intro hcover p hp
        have hp' := hp
        simp only [Interval.contains, Interval.intersection] at hp'
        have htot : total.contains ⟨p⟩ :=
          ⟨le_trans (le_max_right _ _) hp'.1,
            lt_of_lt_of_le hp'.2 (min_le_right _ _)⟩
        have hchosenmem : chosen ∈ l :: ls := by
          rcases hdisj with ⟨rfl, _⟩ | ⟨j, hj, _, _⟩
          · exact List.mem_cons_self _ _
          · exact List.mem_cons_of_mem _ (List.get?_mem hj)
        obtain ⟨t, ht, htp⟩ := hcover chosen hchosenmem p htot
        have htp' := htp
        simp only [Interval.contains] at htp'
        have hover : (view_interval.intersection total).overlaps t.val := by
          simp only [Interval.overlaps, Interval.intersection]
          omega
        exact ⟨t, List.mem_filter.mpr ⟨ht, decide_eq_true hover⟩, htp⟩
      rcases hdisj with ⟨rfl, rfl⟩ | ⟨j, hj, hjlt, hjstrict⟩
      · refine ⟨0, chosen, kc, rfl, hscore, hreq, hminall, ?_, hcov⟩
        intro j hj
        exact absurd hj (Nat.not_lt_zero j)
      · refine ⟨j + 1, chosen, kc, by simpa using hj, hscore, hreq,
          hminall, ?_, hcov⟩
        intro i hi lvl s hil hls
        cases i with
        | zero =>
          simp only [List.get?_cons_zero, Option.some.injEq] at hil
          subst hil
          rw [hkl] at hls
          cases hls
          exact hjlt
        | succ i' =>
          exact hjstrict i' (by omega) lvl s (by simpa using hil) hls

end PV
